import Mathlib

/-!
# mongo-experiments: a shallow embedding of `main.go`

The program is sequential glue around a MongoDB client.  The embedding keeps

* Go `int` as `Int` reduced to the 64-bit two's complement range after every
  addition (`wrapInt`), the width of `int` on 64-bit targets;
* instants and durations as `Int` nanoseconds;
* the clock as the sequence of values returned by successive `time.Now()`
  calls (`Env.now k` is the value of the `k`-th read), the number of reads done
  so far being part of the state;
* the database as explicit state (`World`): the index descriptors and the
  stored documents of the one collection, the trace of client calls and the
  lines written to standard output;
* the outcome of every client call as a field of `Env`;
* `log.Fatal` as the outcome `Outcome.fatal` (the process exits at once,
  deferred calls do not run).
-/

namespace MongoExperiments

/-! ## Machine integers and time -/

/-- Largest value of a Go `int` on a 64-bit target. -/
def maxInt : Int := 9223372036854775807

/-- Smallest value of a Go `int` on a 64-bit target. -/
def minInt : Int := -9223372036854775808

/-- Reduction of a mathematical integer to the 64-bit two's complement range:
the value a Go `int` holds after an operation whose exact result is `x`. -/
def wrapInt (x : Int) : Int :=
  (x + 9223372036854775808) % 18446744073709551616 - 9223372036854775808

/-- Go `a + b` on `int`. -/
def addInt (a b : Int) : Int := wrapInt (a + b)

/-- The constant `time.Hour`, in nanoseconds. -/
def hour : Int := 3600000000000

/-- The duration `2 * time.Hour` added to the second clock reading in `getBatch`. -/
def twoHours : Int := 2 * hour

/-- Rendering of the verb `%d` of `fmt.Sprintf` for an `int`: decimal digits,
preceded by a minus sign for a negative value. -/
def sprintD (x : Int) : String :=
  if x < 0 then "-" ++ Nat.repr x.natAbs else Nat.repr x.toNat

/-! ## Record model -/

/-- Go `Token`: the document inserted into the collection. -/
structure Token where
  ID : Int
  Name : String
  CreatedAt : Int
  ExpiresOn : Int
  deriving DecidableEq, Repr

/-- The `Token{...}` literal built in the body of the loop of `getBatch`, for
loop index `j`, when `c` clock reads have been done before it: `CreatedAt`
takes the read number `c`, `ExpiresOn` the read number `c + 1`. -/
def mkToken (now : Nat → Int) (c : Nat) (i j : Int) : Token :=
  { ID := addInt i j
    Name := "token_" ++ sprintD (addInt i j)
    CreatedAt := now c
    ExpiresOn := now (c + 1) + twoHours }

/-- The loop `for j := 0; j < batchSize; j++ { batch[j] = token }` of
`getBatch` with `k` iterations left, at loop index `j`, after `c` clock reads:
the slice elements from position `j` on, in order. -/
def getBatchLoop (now : Nat → Int) (i : Int) : Nat → Int → Nat → List Token
  | 0, _, _ => []
  | k + 1, j, c => mkToken now c i j :: getBatchLoop now i k (j + 1) (c + 2)

/-- The largest length `make([]interface{}, n)` accepts on a 64-bit target: the
runtime refuses an allocation of more than `2^48` bytes and an interface value
takes 16 bytes, so the limit is `2^44` elements.  Above it `make` panics
whatever the memory of the machine. -/
def maxSliceLen : Int := 17592186044416

/-- Go `getBatch(i, batchSize)` started after `c` clock reads: the batch and the
number of clock reads after it.  `make` panics (`none`) on a negative length
and on a length above `maxSliceLen` (`makeslice: len out of range`). -/
def getBatch (now : Nat → Int) (c : Nat) (i batchSize : Int) : Option (List Token × Nat) :=
  if batchSize < 0 ∨ maxSliceLen < batchSize then none
  else some (getBatchLoop now i batchSize.toNat 0 c, c + 2 * batchSize.toNat)

/-! ## Constants of the program -/

/-- The constant `batches`. -/
def batches : Int := 1

/-- The constant `totalDocuments`. -/
def totalDocuments : Int := 100000

/-- The constant `expireIndex`: the name of the TTL index. -/
def expireIndex : String := "expires_on"

/-! ## The database and the process state -/

/-- One document of the cursor returned by `Indexes().List`, reduced to what
`manageIndex` reads of it: the value of `result["name"].(string)`, `none` when
the field is absent or is not a string. -/
structure IndexDoc where
  name : Option String
  deriving DecidableEq, Repr

/-- BSON encoding of an instant: a UTC datetime, in whole milliseconds. -/
def toDateTime (t : Int) : Int := t / 1000000

/-- A document of the collection, as stored: the BSON form of a `Token`. -/
structure StoredDoc where
  id : Int
  name : String
  created_at : Int
  expires_on : Int
  deriving DecidableEq, Repr

/-- The BSON form of a `Token`, field by field (`_id`, `name`, `created_at`,
`expires_on`). -/
def encodeToken (t : Token) : StoredDoc :=
  { id := t.ID
    name := t.Name
    created_at := toDateTime t.CreatedAt
    expires_on := toDateTime t.ExpiresOn }

/-- A call of the client library, with its arguments and whether it succeeded. -/
inductive Call where
  | connect (ok : Bool)
  | listIndexes (ok : Bool)
  | createOne (name key : String) (expireAfterSeconds : Int) (ok : Bool)
  | insertMany (batch : List Token) (ok : Bool)
  | deleteMany (ok : Bool)
  | updateMany (expiresOn : Int) (ok : Bool)
  | disconnect (ok : Bool)
  deriving DecidableEq, Repr

/-- A line written to standard output.  The two timing lines keep the printed
integer and the duration in nanoseconds (the program prints it in seconds). -/
inductive Line where
  | println (s : String)
  | inserted (n : Int) (d : Int)
  | deleted (exp : Int) (d : Int)
  deriving DecidableEq, Repr

/-- What the program does not decide: the clock and the outcome of every call
of the client library.  `insertFails k = some m` makes the `k`-th `InsertMany`
call of the run fail after the server has written the first `m` documents of
its batch. -/
structure Env where
  now : Nat → Int
  connectFails : Bool
  listFails : Bool
  decodeFails : Nat → Bool
  createFails : Bool
  insertFails : Nat → Option Nat
  deleteFails : Bool
  updateFails : Bool
  disconnectFails : Bool

/-- State of the process and of the collection. -/
structure World where
  reads : Nat
  inserts : Nat
  indexes : List IndexDoc
  docs : List StoredDoc
  calls : List Call
  out : List Line
  deriving DecidableEq, Repr

/-- How a piece of the program ends: it returns a value, it ends the process
through `log.Fatal`, it panics, or the model ran out of loop iterations. -/
inductive Outcome (α : Type) where
  | ok (a : α) (w : World)
  | fatal (w : World)
  | panic (w : World)
  | outOfFuel (w : World)
  deriving DecidableEq, Repr

/-- The state in which a piece of the program ends. -/
def Outcome.world {α : Type} : Outcome α → World
  | .ok _ w => w
  | .fatal w => w
  | .panic w => w
  | .outOfFuel w => w

/-- Go `t.Sub(u)`: the difference, saturated to the range of `time.Duration`. -/
def subTime (t u : Int) : Int := max minInt (min maxInt (t - u))

/-! ## Index manager -/

/-- The loop `for cursor.Next(ctx)` of `manageIndex` over the remaining
descriptors, `pos` being the position of the first of them: `Except.error` when
`Decode` fails, otherwise the final value of `indexExists`. -/
def scanIndexes (env : Env) : Nat → List IndexDoc → Except Unit Bool
  | _, [] => .ok false
  | pos, d :: rest =>
    if env.decodeFails pos then .error ()
    else if d.name = some expireIndex then .ok true
    else scanIndexes env (pos + 1) rest

/-- Go `manageIndex`.  The value returned is `err != nil`. -/
def manageIndex (env : Env) (w : World) : Outcome Bool :=
  let w1 := { w with calls := w.calls ++ [Call.listIndexes (!env.listFails)] }
  if env.listFails then .fatal w1
  else
    match scanIndexes env 0 w1.indexes with
    | .error _ => .ok true w1
    | .ok true => .ok false { w1 with out := w1.out ++ [Line.println "TTL index exists."] }
    | .ok false =>
      .ok env.createFails
        { w1 with
          calls := w1.calls ++ [Call.createOne expireIndex "expires_on" 0 (!env.createFails)]
          indexes := if env.createFails then w1.indexes
                     else w1.indexes ++ [{ name := some expireIndex }]
          out := w1.out ++ [Line.println "TTL index created."] }

/-! ## Insert loop -/

/-- The loop `for i := 0; i < totalDocuments; i += batchSize` of
`insertRecords`, at loop variable `i` with accumulated duration `d`, allowed
`fuel` more iterations. -/
def insertLoop (env : Env) (total batchSize : Int) : Nat → Int → Int → World → Outcome Int
  | 0, i, d, w => if i < total then .outOfFuel w else .ok d w
  | fuel + 1, i, d, w =>
    if i < total then
      match getBatch env.now w.reads i batchSize with
      | none => .panic w
      | some (batch, c) =>
        let start := env.now c
        match env.insertFails w.inserts with
        | some m =>
          .fatal { w with
                   reads := c + 1
                   inserts := w.inserts + 1
                   docs := w.docs ++ (batch.take m).map encodeToken
                   calls := w.calls ++ [Call.insertMany batch false] }
        | none =>
          let since := subTime (env.now (c + 1)) start
          insertLoop env total batchSize fuel (addInt i batchSize) (addInt d since)
            { w with
              reads := c + 2
              inserts := w.inserts + 1
              docs := w.docs ++ batch.map encodeToken
              calls := w.calls ++ [Call.insertMany batch true] }
    else .ok d w

/-- Go `insertRecords`, for given values of the constants `totalDocuments` and
`batches`; `batchSize` is their quotient truncated toward zero. -/
def insertRecordsWith (total nbatches : Int) (fuel : Nat) (env : Env) (w : World) :
    Outcome Int :=
  insertLoop env total (Int.tdiv total nbatches) fuel 0 0 w

/-- Go `insertRecords` with the constants of the program. -/
def insertRecords (fuel : Nat) (env : Env) (w : World) : Outcome Int :=
  insertRecordsWith totalDocuments batches fuel env w

/-! ## Driver -/

/-- The deferred `client.Disconnect`, fatal when it fails. -/
def disconnect (env : Env) (w : World) : Outcome Unit :=
  let w1 := { w with calls := w.calls ++ [Call.disconnect (!env.disconnectFails)] }
  if env.disconnectFails then .fatal w1 else .ok () w1

/-- The end of `main` after a successful cleanup call: the second timing line,
then the deferred disconnect. -/
def finish (env : Env) (exp start : Int) (w : World) : Outcome Unit :=
  disconnect env
    { w with
      reads := w.reads + 1
      out := w.out ++ [Line.deleted exp (subTime (env.now w.reads) start)] }

/-- The part of `main` from `start := time.Now()` on, for `exp` equal to 1 or 2. -/
def cleanup (env : Env) (exp : Int) (w : World) : Outcome Unit :=
  let start := env.now w.reads
  let w1 := { w with reads := w.reads + 1 }
  if exp = 1 then
    let w2 := { w1 with
                calls := w1.calls ++ [Call.deleteMany (!env.deleteFails)]
                docs := if env.deleteFails then w1.docs else [] }
    if env.deleteFails then .fatal w2 else finish env exp start w2
  else if exp = 2 then
    let t := env.now w1.reads
    let w2 := { w1 with
                reads := w1.reads + 1
                calls := w1.calls ++ [Call.updateMany t (!env.updateFails)]
                docs := if env.updateFails then w1.docs
                        else w1.docs.map (fun d => { d with expires_on := toDateTime t }) }
    if env.updateFails then .fatal w2 else finish env exp start w2
  else finish env exp start w1

/-- The part of `main` that follows a successful `manageIndex`: the early
return for an unrecognised experiment, otherwise the insert phase, the first
timing line and the cleanup phase.  A panic runs the deferred disconnect. -/
def experiment (total nbatches : Int) (fuel : Nat) (env : Env) (exp : Int) (w : World) :
    Outcome Unit :=
  if exp ≠ 1 ∧ exp ≠ 2 then disconnect env w
  else
    match insertRecordsWith total nbatches fuel env w with
    | .ok d w3 => cleanup env exp { w3 with out := w3.out ++ [Line.inserted total d] }
    | .fatal w3 => .fatal w3
    | .panic w3 =>
      match disconnect env w3 with
      | .ok _ w4 => .panic w4
      | o => o
    | .outOfFuel w3 => .outOfFuel w3

/-- Go `main`, for given values of the constants `totalDocuments` and
`batches`, with `exp` the value of the flag `-Exp`. -/
def mainWith (total nbatches : Int) (fuel : Nat) (env : Env) (exp : Int) (w : World) :
    Outcome Unit :=
  let w1 := { w with calls := w.calls ++ [Call.connect (!env.connectFails)] }
  if env.connectFails then .fatal w1
  else
    match manageIndex env w1 with
    | .ok true w2 => .fatal w2
    | .ok false w2 => experiment total nbatches fuel env exp w2
    | .fatal w2 => .fatal w2
    | .panic w2 => .panic w2
    | .outOfFuel w2 => .outOfFuel w2

/-- Go `main` with the constants of the program. -/
def main (fuel : Nat) (env : Env) (exp : Int) (w : World) : Outcome Unit :=
  mainWith totalDocuments batches fuel env exp w

/-! ## Observations on a run -/

/-- The call is an `InsertMany`. -/
def Call.isInsert : Call → Bool
  | .insertMany _ _ => true
  | _ => false

/-- The call is a `DeleteMany` or an `UpdateMany`. -/
def Call.isCleanup : Call → Bool
  | .deleteMany _ => true
  | .updateMany _ _ => true
  | _ => false

/-- The call is a `CreateOne` on the index view. -/
def Call.isCreate : Call → Bool
  | .createOne _ _ _ _ => true
  | _ => false

/-- The line is one of the two timing lines. -/
def Line.isTiming : Line → Bool
  | .inserted _ _ => true
  | .deleted _ _ => true
  | .println _ => false

/-- The batches handed to `InsertMany`, in call order. -/
def batchesOf : List Call → List (List Token)
  | [] => []
  | .insertMany b _ :: cs => b :: batchesOf cs
  | _ :: cs => batchesOf cs

/-- A clock that never goes back. -/
def NonDecreasing (now : Nat → Int) : Prop := ∀ a b : Nat, a ≤ b → now a ≤ now b

/-- An environment in which every call of the client library succeeds. -/
def Env.allSucceed (env : Env) : Prop :=
  env.connectFails = false ∧ env.listFails = false ∧ (∀ k, env.decodeFails k = false) ∧
  env.createFails = false ∧ (∀ k, env.insertFails k = none) ∧ env.deleteFails = false ∧
  env.updateFails = false ∧ env.disconnectFails = false

/-- The empty process state on a collection with the given indexes and documents. -/
def World.init (indexes : List IndexDoc) (docs : List StoredDoc) : World :=
  { reads := 0, inserts := 0, indexes := indexes, docs := docs, calls := [], out := [] }

/-- An environment with the given clock in which every call succeeds. -/
def Env.good (now : Nat → Int) : Env :=
  { now := now, connectFails := false, listFails := false, decodeFails := fun _ => false,
    createFails := false, insertFails := fun _ => none, deleteFails := false,
    updateFails := false, disconnectFails := false }

/-- The batches built by `m` successive iterations of the loop of
`insertRecords` with batch size `s`, the first of them at loop variable `i`
after `c` clock reads, when `make` accepts the length and no addition overflows: each iteration reads the
clock twice per record and twice around its `InsertMany` call. -/
def loopBatches (now : Nat → Int) (s : Int) : Nat → Int → Nat → List (List Token)
  | 0, _, _ => []
  | m + 1, i, c =>
    getBatchLoop now i s.toNat 0 c :: loopBatches now s m (i + s) (c + 2 * s.toNat + 2)

/-- The call is an `InsertMany` that failed. -/
def Call.isFailedInsert : Call → Bool
  | .insertMany _ false => true
  | _ => false

/-- The number of iterations of the loop of `insertRecords` when the loop
variable does not overflow: the quotient of `total` by `batchSize`, rounded up. -/
def iterations (total batchSize : Int) : Nat := ((total + batchSize - 1) / batchSize).toNat

/-- The value is in the range of a Go `int`. -/
def IsInt (x : Int) : Prop := minInt ≤ x ∧ x ≤ maxInt

/-! ## Machine integers -/

theorem wrapInt_of_isInt {x : Int} (h : IsInt x) : wrapInt x = x := by
  unfold IsInt minInt maxInt at h
  unfold wrapInt
  omega

theorem addInt_of_isInt {a b : Int} (h : IsInt (a + b)) : addInt a b = a + b :=
  wrapInt_of_isInt h

theorem wrapInt_isInt (x : Int) : IsInt (wrapInt x) := by
  unfold IsInt minInt maxInt wrapInt
  omega

/-! ## Batch generator -/

theorem getBatchLoop_length (now : Nat → Int) (i : Int) (k : Nat) (j : Int) (c : Nat) :
    (getBatchLoop now i k j c).length = k := by
  induction k generalizing j c with
  | zero => rfl
  | succ k ih => simp [getBatchLoop, ih]

theorem getBatchLoop_getElem? (now : Nat → Int) (i : Int) (k : Nat) (j : Int) (c : Nat)
    (t : Nat) (ht : t < k) :
    (getBatchLoop now i k j c)[t]? = some (mkToken now (c + 2 * t) i (j + t)) := by
  induction k generalizing j c t with
  | zero => omega
  | succ k ih =>
    cases t with
    | zero => simp [getBatchLoop]
    | succ t =>
      have h := ih (j + 1) (c + 2) t (by omega)
      simp only [getBatchLoop, List.getElem?_cons_succ, h]
      congr 2
      · omega
      · push_cast; ring

theorem getBatchLoop_mem (now : Nat → Int) (i : Int) (k : Nat) (j : Int) (c : Nat) (r : Token)
    (hr : r ∈ getBatchLoop now i k j c) :
    ∃ t : Nat, t < k ∧ r = mkToken now (c + 2 * t) i (j + t) := by
  obtain ⟨t, ht, hget⟩ := List.getElem_of_mem hr
  rw [getBatchLoop_length] at ht
  refine ⟨t, ht, ?_⟩
  have h1 := getBatchLoop_getElem? now i k j c t ht
  rw [List.getElem?_eq_getElem (by rw [getBatchLoop_length]; exact ht)] at h1
  rw [← hget]
  exact Option.some.inj h1

theorem getBatch_eq (now : Nat → Int) (c : Nat) (i n : Int) (hn : 0 ≤ n)
    (hlen : n ≤ maxSliceLen) :
    getBatch now c i n = some (getBatchLoop now i n.toNat 0 c, c + 2 * n.toNat) := by
  unfold getBatch
  rw [if_neg (by omega)]

theorem getBatch_too_long (now : Nat → Int) (c : Nat) (i n : Int) (hlen : maxSliceLen < n) :
    getBatch now c i n = none := by
  unfold getBatch
  rw [if_pos (Or.inr hlen)]

/-- C1 (counterexample): at offset `maxInt` and batch size 2 the second record
has id `minInt`, not `maxInt + 1`: the addition `i + j` wraps around.  And at
batch size `2^62`, which is not negative, no record is returned: `make`
panics. -/
theorem getBatch_ids_overflow :
    (getBatch (fun _ => 0) 0 9223372036854775807 2).map (fun p => p.1.map Token.ID)
        = some [9223372036854775807, -9223372036854775808] ∧
      (-9223372036854775808 : Int) ≠ 9223372036854775807 + 1 ∧
      (0 : Int) ≤ 4611686018427387904 ∧
      getBatch (fun _ => 0) 0 0 4611686018427387904 = none := by
  refine ⟨?_, ?_, ?_, ?_⟩
  · decide
  · decide
  · decide
  · exact getBatch_too_long _ _ _ _ (by decide)

/-- C1 (amended): for every offset `i` and every batch size `n ≥ 0` that `make`
accepts (`n ≤ maxSliceLen`), `getBatch i n` returns exactly `n` records and the
record at position `j < n` has id `i + j` reduced to the range of `int`; when
`i + n - 1` does not exceed `maxInt` that id is `i + j` itself, so the ids run
in order from `i` to `i + n - 1`. -/
theorem getBatch_ids (now : Nat → Int) (c : Nat) (i n : Int) (hn : 0 ≤ n)
    (hlen : n ≤ maxSliceLen) (hi : minInt ≤ i) :
    ∃ batch : List Token,
      getBatch now c i n = some (batch, c + 2 * n.toNat) ∧
      (batch.length : Int) = n ∧
      (∀ j : Nat, (j : Int) < n → batch[j]?.map Token.ID = some (wrapInt (i + j))) ∧
      (i + n - 1 ≤ maxInt →
        ∀ j : Nat, (j : Int) < n → batch[j]?.map Token.ID = some (i + j)) := by
  refine ⟨getBatchLoop now i n.toNat 0 c, getBatch_eq now c i n hn hlen, ?_, ?_, ?_⟩
  · rw [getBatchLoop_length]; omega
  · intro j hj
    rw [getBatchLoop_getElem? now i n.toNat 0 c j (by omega)]
    simp [mkToken, addInt]
  · intro hmax j hj
    rw [getBatchLoop_getElem? now i n.toNat 0 c j (by omega)]
    have h : IsInt (i + (0 + (j : Int))) := by
      unfold IsInt; unfold maxInt at hmax ⊢; unfold minInt at hi ⊢; omega
    simp only [mkToken, Option.map_some', addInt_of_isInt h]
    simp

/-- C1 (witness): the batch at offset 5 of size 3. -/
theorem getBatch_ids_witness :
    ∃ batch : List Token,
      getBatch (fun _ => 0) 0 5 3 = some (batch, 0 + 2 * (3 : Int).toNat) ∧
      (batch.length : Int) = 3 ∧
      (∀ j : Nat, (j : Int) < 3 → batch[j]?.map Token.ID = some (wrapInt (5 + j))) ∧
      (5 + 3 - 1 ≤ maxInt →
        ∀ j : Nat, (j : Int) < 3 → batch[j]?.map Token.ID = some (5 + j)) :=
  getBatch_ids (fun _ => 0) 0 5 3 (by decide) (by decide) (by decide)

/-- C3: every record of a batch returned by `getBatch` has as name the string
`token_` followed by the decimal rendering of its own id, which starts with a
minus sign when the id is negative. -/
theorem getBatch_name (now : Nat → Int) (c : Nat) (i n : Int) (batch : List Token) (c' : Nat)
    (h : getBatch now c i n = some (batch, c')) (r : Token) (hr : r ∈ batch) :
    r.Name = "token_" ++ sprintD r.ID ∧
      (r.ID < 0 → sprintD r.ID = "-" ++ Nat.repr r.ID.natAbs) ∧
      (0 ≤ r.ID → sprintD r.ID = Nat.repr r.ID.toNat) := by
  unfold getBatch at h
  split at h
  · simp at h
  · simp only [Option.some.injEq, Prod.mk.injEq] at h
    rw [← h.1] at hr
    obtain ⟨t, _, rfl⟩ := getBatchLoop_mem now i n.toNat 0 c r hr
    refine ⟨rfl, ?_, ?_⟩
    · intro hneg; unfold sprintD; rw [if_pos hneg]
    · intro hpos; unfold sprintD; rw [if_neg (by omega)]

/-- C3 (witness): the first record of the batch at offset -3. -/
theorem getBatch_name_witness :
    (mkToken (fun _ => 0) 0 (-3) 0).Name = "token_" ++ sprintD (mkToken (fun _ => 0) 0 (-3) 0).ID ∧
      ((mkToken (fun _ => 0) 0 (-3) 0).ID < 0 →
        sprintD (mkToken (fun _ => 0) 0 (-3) 0).ID
          = "-" ++ Nat.repr (mkToken (fun _ => 0) 0 (-3) 0).ID.natAbs) ∧
      (0 ≤ (mkToken (fun _ => 0) 0 (-3) 0).ID →
        sprintD (mkToken (fun _ => 0) 0 (-3) 0).ID
          = Nat.repr (mkToken (fun _ => 0) 0 (-3) 0).ID.toNat) :=
  getBatch_name (fun _ => 0) 0 (-3) 2
    (getBatchLoop (fun _ => 0) (-3) 2 0 0) 4 (by decide) _ (by simp [getBatchLoop])

/-- C4 (counterexample): with the clock that advances by one nanosecond at
every read, which never goes back, the only record of a batch of size one has
`expires_on - created_at` equal to two hours and one nanosecond. -/
theorem getBatch_expiry_gap_counterexample :
    NonDecreasing (fun k => (k : Int)) ∧
      (getBatch (fun k => (k : Int)) 0 0 1).map
          (fun p => p.1.map (fun r => r.ExpiresOn - r.CreatedAt)) = some [twoHours + 1] ∧
      twoHours + 1 ≠ twoHours := by
  refine ⟨?_, ?_, ?_⟩
  · intro a b hab; show (a : Int) ≤ (b : Int); exact_mod_cast hab
  · decide
  · decide

/-- C4 (amended): under a clock that never goes back, every record of a batch
returned by `getBatch` has `created_at` equal to one clock reading and
`expires_on` equal to the next reading plus two hours, so `expires_on` is
strictly later than `created_at` and their difference is two hours plus the
time elapsed between the two readings: at least two hours, and exactly two
hours only when the two readings are equal. -/
theorem getBatch_expiry (now : Nat → Int) (hmono : NonDecreasing now) (c : Nat) (i n : Int)
    (batch : List Token) (c' : Nat) (h : getBatch now c i n = some (batch, c'))
    (r : Token) (hr : r ∈ batch) :
    r.CreatedAt < r.ExpiresOn ∧ twoHours ≤ r.ExpiresOn - r.CreatedAt ∧
      ∃ k : Nat, c ≤ k ∧ k + 1 < c' ∧ r.CreatedAt = now k ∧ r.ExpiresOn = now (k + 1) + twoHours ∧
        (r.ExpiresOn - r.CreatedAt = twoHours ↔ now (k + 1) = now k) := by
  unfold getBatch at h
  split at h
  · simp at h
  · simp only [Option.some.injEq, Prod.mk.injEq] at h
    rw [← h.1] at hr
    obtain ⟨t, ht, rfl⟩ := getBatchLoop_mem now i n.toNat 0 c r hr
    have hle := hmono (c + 2 * t) (c + 2 * t + 1) (by omega)
    have h2 : (0 : Int) < twoHours := by decide
    simp only [mkToken]
    refine ⟨by omega, by omega, c + 2 * t, by omega, by omega, rfl, rfl, ?_⟩
    constructor <;> intro h' <;> omega

/-- C4 (witness): the record of the batch of size one under a constant clock. -/
theorem getBatch_expiry_witness :
    (mkToken (fun _ => 7) 0 0 0).CreatedAt < (mkToken (fun _ => 7) 0 0 0).ExpiresOn ∧
      twoHours ≤ (mkToken (fun _ => 7) 0 0 0).ExpiresOn - (mkToken (fun _ => 7) 0 0 0).CreatedAt ∧
      ∃ k : Nat, 0 ≤ k ∧ k + 1 < 2 ∧ (mkToken (fun _ => 7) 0 0 0).CreatedAt = (fun _ => 7) k ∧
        (mkToken (fun _ => 7) 0 0 0).ExpiresOn = (fun _ => 7) (k + 1) + twoHours ∧
        ((mkToken (fun _ => 7) 0 0 0).ExpiresOn - (mkToken (fun _ => 7) 0 0 0).CreatedAt = twoHours
          ↔ (fun _ : Nat => (7 : Int)) (k + 1) = (fun _ : Nat => (7 : Int)) k) :=
  getBatch_expiry (fun _ => 7) (fun _ _ _ => le_refl _) 0 0 1
    (getBatchLoop (fun _ => 7) 0 1 0 0) 2 (by decide) _ (by simp [getBatchLoop])

/-! ## Index manager -/

theorem scanIndexes_absent (env : Env) (hdec : ∀ k, env.decodeFails k = false)
    (l : List IndexDoc) (habs : ∀ d ∈ l, d.name ≠ some expireIndex) (pos : Nat) :
    scanIndexes env pos l = .ok false := by
  induction l generalizing pos with
  | nil => rfl
  | cons d rest ih =>
    have hd : d.name ≠ some expireIndex := habs d (List.mem_cons_self _ _)
    simp only [scanIndexes, hdec, Bool.false_eq_true, if_false, if_neg hd]
    exact ih (fun e he => habs e (List.mem_cons_of_mem _ he)) (pos + 1)

theorem scanIndexes_present (env : Env) (hdec : ∀ k, env.decodeFails k = false)
    (l : List IndexDoc) (habs : ∀ d ∈ l, d.name ≠ some expireIndex) (pos : Nat) :
    scanIndexes env pos (l ++ [{ name := some expireIndex }]) = .ok true := by
  induction l generalizing pos with
  | nil => simp [scanIndexes, hdec]
  | cons d rest ih =>
    have hd : d.name ≠ some expireIndex := habs d (List.mem_cons_self _ _)
    simp only [List.cons_append, scanIndexes, hdec, Bool.false_eq_true, if_false, if_neg hd]
    exact ih (fun e he => habs e (List.mem_cons_of_mem _ he)) (pos + 1)

theorem manageIndex_absent (env : Env) (w : World)
    (hlist : env.listFails = false) (hdec : ∀ k, env.decodeFails k = false)
    (hcreate : env.createFails = false)
    (habs : ∀ d ∈ w.indexes, d.name ≠ some expireIndex) :
    ∃ w1 : World, manageIndex env w = .ok false w1 ∧
      w1.calls = w.calls ++ [Call.listIndexes true, Call.createOne expireIndex "expires_on" 0 true] ∧
      w1.out = w.out ++ [Line.println "TTL index created."] ∧
      w1.indexes = w.indexes ++ [{ name := some expireIndex }] ∧ w1.docs = w.docs := by
  have h1 := scanIndexes_absent env hdec w.indexes habs 0
  refine ⟨{ w with
            calls := w.calls ++ [Call.listIndexes true, Call.createOne expireIndex "expires_on" 0 true]
            out := w.out ++ [Line.println "TTL index created."]
            indexes := w.indexes ++ [{ name := some expireIndex }] }, ?_, rfl, rfl, rfl, rfl⟩
  simp [manageIndex, hlist, hcreate, h1]

theorem manageIndex_present (env : Env) (w : World)
    (hlist : env.listFails = false) (hdec : ∀ k, env.decodeFails k = false)
    (hpres : ∃ l, w.indexes = l ++ [{ name := some expireIndex }] ∧
      ∀ d ∈ l, d.name ≠ some expireIndex) :
    ∃ w1 : World, manageIndex env w = .ok false w1 ∧
      w1.calls = w.calls ++ [Call.listIndexes true] ∧
      w1.out = w.out ++ [Line.println "TTL index exists."] ∧
      w1.indexes = w.indexes ∧ w1.docs = w.docs := by
  obtain ⟨l, hl, habs⟩ := hpres
  have h2 := scanIndexes_present env hdec l habs 0
  rw [← hl] at h2
  refine ⟨{ w with
            calls := w.calls ++ [Call.listIndexes true]
            out := w.out ++ [Line.println "TTL index exists."] }, ?_, rfl, rfl, rfl, rfl⟩
  simp [manageIndex, hlist, h2]

/-- C5: from a collection with no index named `expireIndex`, and with the
listing, the decoding and the creation succeeding, a first `manageIndex`
lists the indexes, issues one create-index call and prints the created line; a
second one lists the indexes, prints the exists line and issues no create call;
both return no error, the two invocations together issue exactly one
create-index call, and the indexes after the second are those after the first. -/
theorem manageIndex_idempotent (env : Env) (w : World)
    (hlist : env.listFails = false) (hdec : ∀ k, env.decodeFails k = false)
    (hcreate : env.createFails = false)
    (habs : ∀ d ∈ w.indexes, d.name ≠ some expireIndex) :
    ∃ w1 w2 : World,
      manageIndex env w = .ok false w1 ∧ manageIndex env w1 = .ok false w2 ∧
      w1.calls = w.calls ++ [Call.listIndexes true, Call.createOne expireIndex "expires_on" 0 true] ∧
      w1.out = w.out ++ [Line.println "TTL index created."] ∧
      w1.indexes = w.indexes ++ [{ name := some expireIndex }] ∧
      w2.calls = w1.calls ++ [Call.listIndexes true] ∧
      w2.out = w1.out ++ [Line.println "TTL index exists."] ∧
      w2.indexes = w1.indexes ∧ w2.docs = w.docs ∧
      ((w2.calls.drop w.calls.length).filter Call.isCreate).length = 1 := by
  obtain ⟨w1, hw1, hc1, ho1, hi1, hd1⟩ := manageIndex_absent env w hlist hdec hcreate habs
  have hpres : ∃ l, w1.indexes = l ++ [{ name := some expireIndex }] ∧
      ∀ d ∈ l, d.name ≠ some expireIndex := ⟨w.indexes, hi1, habs⟩
  obtain ⟨w2, hw2, hc2, ho2, hi2, hd2⟩ := manageIndex_present env w1 hlist hdec hpres
  refine ⟨w1, w2, hw1, hw2, hc1, ho1, hi1, hc2, ho2, hi2, by rw [hd2, hd1], ?_⟩
  rw [hc2, hc1]
  simp [Call.isCreate]

/-- C5 (witness): two invocations on a collection that has only the default
index on `_id`. -/
theorem manageIndex_idempotent_witness :
    ∃ w1 w2 : World,
      manageIndex (Env.good (fun _ => 0)) (World.init [{ name := some "_id_" }] []) = .ok false w1 ∧
      manageIndex (Env.good (fun _ => 0)) w1 = .ok false w2 ∧
      w1.calls = (World.init [{ name := some "_id_" }] []).calls
        ++ [Call.listIndexes true, Call.createOne expireIndex "expires_on" 0 true] ∧
      w1.out = (World.init [{ name := some "_id_" }] []).out ++ [Line.println "TTL index created."] ∧
      w1.indexes = (World.init [{ name := some "_id_" }] []).indexes ++ [{ name := some expireIndex }] ∧
      w2.calls = w1.calls ++ [Call.listIndexes true] ∧
      w2.out = w1.out ++ [Line.println "TTL index exists."] ∧
      w2.indexes = w1.indexes ∧ w2.docs = (World.init [{ name := some "_id_" }] []).docs ∧
      ((w2.calls.drop (World.init [{ name := some "_id_" }] []).calls.length).filter
        Call.isCreate).length = 1 :=
  manageIndex_idempotent (Env.good (fun _ => 0)) (World.init [{ name := some "_id_" }] [])
    rfl (fun _ => rfl) rfl (by decide)

/-! ## Insert loop -/

theorem loopBatches_length (now : Nat → Int) (s : Int) (m : Nat) (i : Int) (c : Nat) :
    (loopBatches now s m i c).length = m := by
  induction m generalizing i c with
  | zero => rfl
  | succ m ih => simp [loopBatches, ih]

theorem loopBatches_mem_length (now : Nat → Int) (s : Int) (m : Nat) (i : Int) (c : Nat)
    (b : List Token) (hb : b ∈ loopBatches now s m i c) : b.length = s.toNat := by
  induction m generalizing i c with
  | zero => simp [loopBatches] at hb
  | succ m ih =>
    simp only [loopBatches, List.mem_cons] at hb
    rcases hb with rfl | hb
    · exact getBatchLoop_length _ _ _ _ _
    · exact ih _ _ hb

theorem loopBatches_join_length (now : Nat → Int) (s : Int) (m : Nat) (i : Int) (c : Nat) :
    (loopBatches now s m i c).flatten.length = m * s.toNat := by
  induction m generalizing i c with
  | zero => simp [loopBatches]
  | succ m ih =>
    simp only [loopBatches, List.flatten_cons, List.length_append, getBatchLoop_length, ih]
    ring

/-- The loop of `insertRecords` when every `InsertMany` succeeds, `make`
accepts the batch size and the loop variable stays in range: after exactly `m` iterations it returns, having
handed the batches `loopBatches` to `InsertMany`. -/
theorem insertLoop_run (env : Env) (hins : ∀ k, env.insertFails k = none) (total s : Int)
    (hs : 0 ≤ s) (hsmax : s ≤ maxSliceLen) (m : Nat) :
    ∀ (fuel : Nat) (i d : Int) (w : World), m ≤ fuel → minInt ≤ i → i + m * s ≤ maxInt →
      (∀ k : Nat, k < m → i + k * s < total) → total ≤ i + m * s →
      ∃ d', insertLoop env total s fuel i d w = .ok d'
        { w with
          reads := w.reads + m * (2 * s.toNat + 2)
          inserts := w.inserts + m
          docs := w.docs ++ (loopBatches env.now s m i w.reads).flatten.map encodeToken
          calls := w.calls ++ (loopBatches env.now s m i w.reads).map
            (fun b => Call.insertMany b true) } := by
  induction m with
  | zero =>
    intro fuel i d w _ _ _ _ htot
    have hni : ¬ i < total := by simp at htot; omega
    refine ⟨d, ?_⟩
    cases fuel <;> simp [insertLoop, hni, loopBatches]
  | succ m ih =>
    intro fuel i d w hfuel himin himax hlt htot
    obtain ⟨fuel, rfl⟩ : ∃ f, fuel = f + 1 := ⟨fuel - 1, by omega⟩
    have e : ((m + 1 : Nat) : Int) * s = m * s + s := by push_cast; ring
    have hms : 0 ≤ (m : Int) * s := by positivity
    have hi : i < total := by simpa using hlt 0 (by omega)
    have hadd : addInt i s = i + s := by
      apply addInt_of_isInt
      unfold IsInt; unfold maxInt at himax ⊢; unfold minInt at himin ⊢
      omega
    obtain ⟨d', hd'⟩ := ih fuel (i + s) (addInt d (subTime (env.now (w.reads + 2 * s.toNat + 1))
        (env.now (w.reads + 2 * s.toNat))))
      { w with
        reads := w.reads + 2 * s.toNat + 2
        inserts := w.inserts + 1
        docs := w.docs ++ (getBatchLoop env.now i s.toNat 0 w.reads).map encodeToken
        calls := w.calls ++ [Call.insertMany (getBatchLoop env.now i s.toNat 0 w.reads) true] }
      (by omega) (by omega) (by omega)
      (fun k hk => by
        have := hlt (k + 1) (by omega)
        have e2 : ((k + 1 : Nat) : Int) * s = k * s + s := by push_cast; ring
        omega)
      (by omega)
    refine ⟨d', ?_⟩
    simp only [insertLoop, if_pos hi, getBatch_eq env.now w.reads i s hs hsmax, hins, hadd]
    rw [hd']
    congr 1
    simp only [loopBatches, List.flatten_cons, List.map_append, List.map_cons, List.append_assoc,
      List.singleton_append]
    congr 1 <;> ring

theorem getBatchLoop_ids (now : Nat → Int) (i : Int) (k : Nat) (c : Nat)
    (hmin : minInt ≤ i) (hmax : i + k - 1 ≤ maxInt) :
    (getBatchLoop now i k 0 c).map Token.ID = (List.range k).map (fun t : Nat => i + t) := by
  apply List.ext_getElem?
  intro t
  by_cases ht : t < k
  · rw [List.getElem?_map, getBatchLoop_getElem? now i k 0 c t ht, List.getElem?_map,
      List.getElem?_range ht]
    have h : IsInt (i + (0 + (t : Int))) := by
      unfold IsInt; unfold maxInt at hmax ⊢; unfold minInt at hmin ⊢; omega
    simp only [mkToken, Option.map_some', addInt_of_isInt h]
    simp
  · rw [List.getElem?_eq_none (by simp [getBatchLoop_length]; omega),
      List.getElem?_eq_none (by simp; omega)]

theorem loopBatches_ids (now : Nat → Int) (s : Int) (hs : 0 ≤ s) (m : Nat) :
    ∀ (i : Int) (c : Nat), minInt ≤ i → i + m * s - 1 ≤ maxInt →
      (loopBatches now s m i c).flatten.map Token.ID
        = (List.range (m * s.toNat)).map (fun t : Nat => i + t) := by
  induction m with
  | zero => intro i c _ _; simp [loopBatches]
  | succ m ih =>
    intro i c hmin hmax
    have e : ((m + 1 : Nat) : Int) * s = m * s + s := by push_cast; ring
    have hms : 0 ≤ (m : Int) * s := by positivity
    have hst : (s.toNat : Int) = s := Int.toNat_of_nonneg hs
    have h1 := getBatchLoop_ids now i s.toNat c hmin (by omega)
    have h2 := ih (i + s) (c + 2 * s.toNat + 2) (by omega) (by omega)
    have e3 : (m + 1) * s.toNat = s.toNat + m * s.toNat := by ring
    rw [loopBatches, List.flatten_cons, List.map_append, h1, h2, e3, List.range_add,
      List.map_append, List.map_map]
    congr 1
    apply List.map_congr_left
    intro t _
    simp only [Function.comp_apply]
    push_cast
    omega

/-- Arithmetic of the iteration count: for a positive batch size the loop
variable is below `total` before each of the `iterations` iterations and has
reached it after the last, overshooting by less than one batch. -/
theorem iterations_spec (total s : Int) (ht : 0 ≤ total) (hs : 1 ≤ s) :
    (∀ k : Nat, k < iterations total s → (k : Int) * s < total) ∧
      total ≤ (iterations total s : Int) * s ∧
      (iterations total s : Int) * s < total + s ∧
      (iterations total s : Int) = (total + s - 1) / s := by
  have hq0 : 0 ≤ (total + s - 1) / s := Int.ediv_nonneg (by omega) (by omega)
  have hcast : (iterations total s : Int) = (total + s - 1) / s := by
    unfold iterations; exact Int.toNat_of_nonneg hq0
  have hdm := Int.ediv_add_emod (total + s - 1) s
  have hr0 := Int.emod_nonneg (total + s - 1) (show s ≠ 0 by omega)
  have hr1 := Int.emod_lt_of_pos (total + s - 1) (show 0 < s by omega)
  have hcomm : s * ((total + s - 1) / s) = (total + s - 1) / s * s := mul_comm _ _
  refine ⟨?_, ?_, ?_, hcast⟩
  · intro k hk
    have hk' : (k : Int) + 1 ≤ (total + s - 1) / s := by rw [← hcast]; exact_mod_cast hk
    have hmul : ((k : Int) + 1) * s ≤ (total + s - 1) / s * s :=
      Int.mul_le_mul_of_nonneg_right hk' (by omega)
    have e : ((k : Int) + 1) * s = k * s + s := by ring
    omega
  · rw [hcast]; omega
  · rw [hcast]; omega

/-- The loop generates exactly `total` records if and only if the batch size
divides `total`. -/
theorem iterations_exact_iff (total s : Int) (ht : 0 ≤ total) (hs : 1 ≤ s) :
    (iterations total s : Int) * s = total ↔ s ∣ total := by
  obtain ⟨_, h2, h3, _⟩ := iterations_spec total s ht hs
  constructor
  · intro h
    exact ⟨(iterations total s : Int), by rw [mul_comm]; exact h.symm⟩
  · intro hdvd
    have hx0 : 0 ≤ (iterations total s : Int) * s - total := by omega
    have hx1 : (iterations total s : Int) * s - total < s := by omega
    have hmod := Int.emod_eq_of_lt hx0 hx1
    have hd : s ∣ (iterations total s : Int) * s - total :=
      dvd_sub (dvd_mul_left s (iterations total s : Int)) hdvd
    have hz := Int.emod_eq_zero_of_dvd hd
    omega

/-- The whole of `insertRecords` when every `InsertMany` succeeds, the batch
size is positive and accepted by `make`, and the loop variable stays in range. -/
theorem insertRecordsWith_run (env : Env) (hins : ∀ k, env.insertFails k = none)
    (total nb : Int) (ht : 0 ≤ total) (hnb : 0 ≤ nb) (hs : 1 ≤ total / nb)
    (hsmax : total / nb ≤ maxSliceLen)
    (hmax : (iterations total (total / nb) : Int) * (total / nb) ≤ maxInt)
    (fuel : Nat) (hfuel : iterations total (total / nb) ≤ fuel) (w : World) :
    ∃ d, insertRecordsWith total nb fuel env w = .ok d
      { w with
        reads := w.reads + iterations total (total / nb) * (2 * (total / nb).toNat + 2)
        inserts := w.inserts + iterations total (total / nb)
        docs := w.docs ++ (loopBatches env.now (total / nb) (iterations total (total / nb))
          0 w.reads).flatten.map encodeToken
        calls := w.calls ++ (loopBatches env.now (total / nb) (iterations total (total / nb))
          0 w.reads).map (fun b => Call.insertMany b true) } := by
  obtain ⟨h1, h2, _, _⟩ := iterations_spec total (total / nb) ht hs
  unfold insertRecordsWith
  rw [Int.tdiv_eq_ediv ht hnb]
  exact insertLoop_run env hins total (total / nb) (by omega) hsmax _ fuel 0 0 w hfuel
    (by decide) (by omega) (fun k hk => by have := h1 k hk; omega) (by omega)

/-- With `2^62` documents in one batch the first `getBatch` panics in `make`:
the loop ends there, before any `InsertMany`, the state unchanged. -/
theorem insertRecordsWith_large_panics (env : Env) (w : World) (fuel : Nat) :
    insertRecordsWith 4611686018427387904 1 (fuel + 1) env w = .panic w := by
  have hs : Int.tdiv 4611686018427387904 1 = 4611686018427387904 := by decide
  have hb : getBatch env.now w.reads 0 4611686018427387904 = none :=
    getBatch_too_long _ _ _ _ (by decide)
  unfold insertRecordsWith
  rw [hs]
  simp [insertLoop, hb]

theorem insertRecordsWith_large_not_ok (env : Env) (w : World) :
    ¬ ∃ (fuel : Nat) (d : Int) (w' : World),
      insertRecordsWith 4611686018427387904 1 fuel env w = .ok d w' := by
  rintro ⟨fuel, d, w', h⟩
  cases fuel with
  | zero => simp [insertRecordsWith, insertLoop] at h
  | succ fuel =>
    rw [insertRecordsWith_large_panics] at h
    cases h

/-- C2 (counterexample): for `N = 2^62` and `B = 1`, which divides `N`, the
batch size is `2^62` and the first `getBatch` panics in `make`: the loop hands
no batch to `InsertMany` and never returns normally, so no record with an id
in `[0, N)` is generated. -/
theorem insertRecords_large_batch_panics :
    (0 : Int) ≤ 4611686018427387904 ∧ (4611686018427387904 : Int) ≤ maxInt ∧
      (1 : Int) ∣ 4611686018427387904 ∧
      insertRecordsWith 4611686018427387904 1 1 (Env.good (fun _ => 0)) (World.init [] [])
        = .panic (World.init [] []) ∧
      batchesOf (World.init [] []).calls = [] ∧
      ¬ ∃ (fuel : Nat) (d : Int) (w' : World),
        insertRecordsWith 4611686018427387904 1 fuel (Env.good (fun _ => 0)) (World.init [] [])
          = .ok d w' :=
  ⟨by decide, by decide, by decide, insertRecordsWith_large_panics _ _ 0, rfl,
    insertRecordsWith_large_not_ok _ _⟩

/-- C2 (amended): for every total count `N` that an `int` can hold and every
batch count `B ≥ 1` dividing `N` such that `make` accepts the batch size `N / B`
(at most `maxSliceLen`), with every `InsertMany` succeeding, the loop of
`insertRecords` returns, and the batches it handed to `InsertMany`, taken
together in call order, hold exactly `N` records whose ids are pairwise
distinct and are `0, 1, ..., N - 1` in this order. -/
theorem insertRecords_ids_contiguous (env : Env) (hins : ∀ k, env.insertFails k = none)
    (N B : Int) (hN0 : 0 ≤ N) (hN : N ≤ maxInt) (hB : 1 ≤ B) (hdiv : B ∣ N)
    (hlen : N / B ≤ maxSliceLen) (w : World) :
    ∃ m : Nat, ∀ fuel : Nat, m ≤ fuel →
      ∃ (d : Int) (w' : World) (bs : List (List Token)),
        insertRecordsWith N B fuel env w = .ok d w' ∧
        w'.calls = w.calls ++ bs.map (fun b => Call.insertMany b true) ∧
        (bs.flatten.length : Int) = N ∧
        bs.flatten.map Token.ID = (List.range N.toNat).map (fun t : Nat => (t : Int)) ∧
        (bs.flatten.map Token.ID).Nodup := by
  have hnodup : ((List.range N.toNat).map (fun t : Nat => (t : Int))).Nodup :=
    (List.nodup_range _).map Nat.cast_injective
  rcases eq_or_lt_of_le hN0 with h0 | hpos
  · subst h0
    refine ⟨0, fun fuel _ => ⟨0, w, [], ?_, by simp, by simp, by simp, by simp⟩⟩
    unfold insertRecordsWith
    cases fuel <;> simp [insertLoop]
  · have hsB : N / B * B = N := Int.ediv_mul_cancel hdiv
    have hs : 1 ≤ N / B := by
      by_contra hlt
      have h1 : N / B ≤ 0 := by omega
      have h2 : N / B * B ≤ 0 * B := Int.mul_le_mul_of_nonneg_right h1 (by omega)
      omega
    obtain ⟨h1, h2, h3, h4⟩ := iterations_spec N (N / B) hN0 hs
    have hdvd : N / B ∣ N := ⟨B, hsB.symm⟩
    have hexact : (iterations N (N / B) : Int) * (N / B) = N :=
      (iterations_exact_iff N (N / B) hN0 hs).2 hdvd
    refine ⟨iterations N (N / B), fun fuel hfuel => ?_⟩
    obtain ⟨d, hd⟩ := insertRecordsWith_run env hins N B hN0 (by omega) hs hlen (by omega) fuel
      hfuel w
    have hlen : ((loopBatches env.now (N / B) (iterations N (N / B)) 0 w.reads).flatten.length
        : Int) = N := by
      rw [loopBatches_join_length]; push_cast
      rw [Int.toNat_of_nonneg (by omega)]; exact hexact
    have hids := loopBatches_ids env.now (N / B) (by omega) (iterations N (N / B)) 0 w.reads
      (by decide) (by omega)
    have hcount : iterations N (N / B) * (N / B).toNat = N.toNat := by
      have : ((iterations N (N / B) * (N / B).toNat : Nat) : Int) = N := by
        push_cast; rw [Int.toNat_of_nonneg (by omega)]; exact hexact
      omega
    rw [hcount] at hids
    have hids' : (loopBatches env.now (N / B) (iterations N (N / B)) 0 w.reads).flatten.map
        Token.ID = (List.range N.toNat).map (fun t : Nat => (t : Int)) := by
      rw [hids]; apply List.map_congr_left; intro t _; simp
    exact ⟨d, _, _, hd, rfl, hlen, hids', by rw [hids']; exact hnodup⟩

/-- C2 (witness): four records in two batches. -/
theorem insertRecords_ids_contiguous_witness :
    ∃ m : Nat, ∀ fuel : Nat, m ≤ fuel →
      ∃ (d : Int) (w' : World) (bs : List (List Token)),
        insertRecordsWith 4 2 fuel (Env.good (fun _ => 0)) (World.init [] []) = .ok d w' ∧
        w'.calls = (World.init [] []).calls ++ bs.map (fun b => Call.insertMany b true) ∧
        (bs.flatten.length : Int) = 4 ∧
        bs.flatten.map Token.ID = (List.range (4 : Int).toNat).map (fun t : Nat => (t : Int)) ∧
        (bs.flatten.map Token.ID).Nodup :=
  insertRecords_ids_contiguous (Env.good (fun _ => 0)) (fun _ => rfl) 4 2 (by decide) (by decide)
    (by decide) (by decide) (by decide) (World.init [] [])

/-- C9 (counterexample): with ten documents in three batches the batch size is
three and the loop, which runs while `i < 10`, makes four `InsertMany` calls:
twelve records are generated, not ten.  And with `2^62` documents in one batch
the first `getBatch` panics in `make`: no record is generated. -/
theorem insertRecords_count_counterexample :
    (1 : Int) ≤ 10 ∧ (1 : Int) ≤ 3 ∧ (3 : Int) ≤ 10 ∧
      ((batchesOf (insertRecordsWith 10 3 10 (Env.good (fun _ => 0))
        (World.init [] [])).world.calls).map List.length) = [3, 3, 3, 3] ∧
      (batchesOf (insertRecordsWith 10 3 10 (Env.good (fun _ => 0))
        (World.init [] [])).world.calls).flatten.length = 12 ∧
      (batchesOf (insertRecordsWith 4611686018427387904 1 10 (Env.good (fun _ => 0))
        (World.init [] [])).world.calls).flatten.length = 0 := by
  refine ⟨by decide, by decide, by decide, rfl, rfl, ?_⟩
  rw [insertRecordsWith_large_panics]
  rfl

/-- C9 (amended): for `N ≥ 1` and `1 ≤ B ≤ N`, with batch size
`s = N / B` (integer division), when `make` accepts the length `s` (at most
`maxSliceLen`), the loop variable does not overflow and every `InsertMany`
succeeds, the loop returns and the total number of records
generated is the number of iterations times `s`; it is at least `N` and less
than `N + s`, and it equals `N` if and only if `s` divides `N` (in particular
when `B` divides `N`). -/
theorem insertRecords_count (env : Env) (hins : ∀ k, env.insertFails k = none)
    (N B : Int) (hN : 1 ≤ N) (hB : 1 ≤ B) (hBN : B ≤ N) (hlen : N / B ≤ maxSliceLen)
    (hmax : (iterations N (N / B) : Int) * (N / B) ≤ maxInt)
    (fuel : Nat) (hfuel : iterations N (N / B) ≤ fuel) (w : World) :
    ∃ (d : Int) (w' : World) (bs : List (List Token)),
      insertRecordsWith N B fuel env w = .ok d w' ∧
      w'.calls = w.calls ++ bs.map (fun b => Call.insertMany b true) ∧
      (bs.flatten.length : Int) = iterations N (N / B) * (N / B) ∧
      N ≤ (bs.flatten.length : Int) ∧ (bs.flatten.length : Int) < N + N / B ∧
      ((bs.flatten.length : Int) = N ↔ N / B ∣ N) ∧
      (B ∣ N → (bs.flatten.length : Int) = N) := by
  have hs : 1 ≤ N / B := Int.le_ediv_of_mul_le (by omega) (by omega)
  obtain ⟨_, h2, h3, _⟩ := iterations_spec N (N / B) (by omega) hs
  obtain ⟨d, hd⟩ := insertRecordsWith_run env hins N B (by omega) (by omega) hs hlen hmax fuel
    hfuel w
  have hlen : ((loopBatches env.now (N / B) (iterations N (N / B)) 0 w.reads).flatten.length
      : Int) = iterations N (N / B) * (N / B) := by
    rw [loopBatches_join_length]; push_cast
    rw [Int.toNat_of_nonneg (by omega)]
  refine ⟨d, _, _, hd, rfl, hlen, by rw [hlen]; exact h2, by rw [hlen]; exact h3, ?_, ?_⟩
  · rw [hlen]; exact iterations_exact_iff N (N / B) (by omega) hs
  · intro hdiv
    rw [hlen]
    exact (iterations_exact_iff N (N / B) (by omega) hs).2
      ⟨B, (Int.ediv_mul_cancel hdiv).symm⟩

/-- C9 (witness): ten documents in three batches. -/
theorem insertRecords_count_witness :
    ∃ (d : Int) (w' : World) (bs : List (List Token)),
      insertRecordsWith 10 3 4 (Env.good (fun _ => 0)) (World.init [] []) = .ok d w' ∧
      w'.calls = (World.init [] []).calls ++ bs.map (fun b => Call.insertMany b true) ∧
      (bs.flatten.length : Int) = iterations 10 (10 / 3) * (10 / 3) ∧
      10 ≤ (bs.flatten.length : Int) ∧ (bs.flatten.length : Int) < 10 + 10 / 3 ∧
      ((bs.flatten.length : Int) = 10 ↔ (10 : Int) / 3 ∣ 10) ∧
      ((3 : Int) ∣ 10 → (bs.flatten.length : Int) = 10) :=
  insertRecords_count (Env.good (fun _ => 0)) (fun _ => rfl) 10 3 (by decide) (by decide)
    (by decide) (by decide) (by decide) 4 (by decide) (World.init [] [])

/-- With an odd bound `maxInt` and batch size two the loop variable stays even
through every wrap-around, so it never reaches the bound. -/
theorem insertLoop_even_diverges (env : Env) (hins : ∀ k, env.insertFails k = none)
    (fuel : Nat) :
    ∀ (i d : Int) (w : World), i % 2 = 0 → IsInt i →
      ∃ w', insertLoop env 9223372036854775807 2 fuel i d w = .outOfFuel w' := by
  induction fuel with
  | zero =>
    intro i d w hev hi
    have hlt : i < 9223372036854775807 := by
      unfold IsInt maxInt minInt at hi; omega
    exact ⟨w, by simp [insertLoop, hlt]⟩
  | succ fuel ih =>
    intro i d w hev hi
    have hlt : i < 9223372036854775807 := by
      unfold IsInt maxInt minInt at hi; omega
    have hev' : addInt i 2 % 2 = 0 := by unfold addInt wrapInt; omega
    simp only [insertLoop, if_pos hlt, getBatch_eq env.now w.reads i 2 (by decide) (by decide), hins]
    exact ih _ _ _ hev' (wrapInt_isInt _)

/-- C10 (counterexample): for `N = maxInt` and `B = 4611686018427387903`, which
satisfy `1 ≤ B ≤ N`, the batch size is two and the loop of `insertRecords`
never returns, whatever the number of iterations allowed: once the loop
variable passes `maxInt - 1` it wraps to `minInt`.  And for `N = 2^62` and
`B = 1` the first `getBatch` panics in `make`, before any `InsertMany`. -/
theorem insertRecords_diverges :
    (1 : Int) ≤ 4611686018427387903 ∧ (4611686018427387903 : Int) ≤ 9223372036854775807 ∧
      Int.tdiv 9223372036854775807 4611686018427387903 = 2 ∧
      (¬ ∃ (fuel : Nat) (d : Int) (w' : World),
        insertRecordsWith 9223372036854775807 4611686018427387903 fuel
          (Env.good (fun _ => 0)) (World.init [] []) = .ok d w') ∧
      insertRecordsWith 4611686018427387904 1 2 (Env.good (fun _ => 0)) (World.init [] [])
        = .panic (World.init [] []) := by
  refine ⟨by decide, by decide, by decide, ?_, insertRecordsWith_large_panics _ _ 1⟩
  rintro ⟨fuel, d, w', h⟩
  have hs : Int.tdiv 9223372036854775807 4611686018427387903 = 2 := by decide
  unfold insertRecordsWith at h
  rw [hs] at h
  obtain ⟨w'', hw⟩ := insertLoop_even_diverges (Env.good (fun _ => 0)) (fun _ => rfl) fuel 0 0
    (World.init [] []) (by decide) (by unfold IsInt; decide)
  rw [hw] at h
  cases h

/-- C10 (amended): for `N ≥ 1` and `1 ≤ B ≤ N`, with batch size `s = N / B`
(integer division), when `make` accepts the length `s` (at most `maxSliceLen`),
the loop variable does not overflow (the number of iterations times `s` is at
most `maxInt`) and every `InsertMany` succeeds, the
loop of `insertRecords` returns after exactly `⌈N / s⌉` calls of `InsertMany`,
each carrying exactly `s` records; with the constants of the program this is
one call carrying 100000 records. -/
theorem insertRecords_calls (env : Env) (hins : ∀ k, env.insertFails k = none) (w : World) :
    (∀ (N B : Int), 1 ≤ N → 1 ≤ B → B ≤ N → N / B ≤ maxSliceLen →
      (iterations N (N / B) : Int) * (N / B) ≤ maxInt →
      ∀ fuel : Nat, iterations N (N / B) ≤ fuel →
        ∃ (d : Int) (w' : World) (bs : List (List Token)),
          insertRecordsWith N B fuel env w = .ok d w' ∧
          w'.calls = w.calls ++ bs.map (fun b => Call.insertMany b true) ∧
          (bs.length : Int) = (N + N / B - 1) / (N / B) ∧
          (N + N / B - 1) / (N / B) = ⌈(N : ℚ) / ((N / B : Int) : ℚ)⌉ ∧
          ∀ b ∈ bs, (b.length : Int) = N / B) ∧
    (∀ fuel : Nat, 1 ≤ fuel →
      ∃ (d : Int) (w' : World) (b : List Token),
        insertRecords fuel env w = .ok d w' ∧
        w'.calls = w.calls ++ [Call.insertMany b true] ∧ b.length = 100000) := by
  have hgen : ∀ (N B : Int), 1 ≤ N → 1 ≤ B → B ≤ N → N / B ≤ maxSliceLen →
      (iterations N (N / B) : Int) * (N / B) ≤ maxInt →
      ∀ fuel : Nat, iterations N (N / B) ≤ fuel →
        ∃ (d : Int) (w' : World) (bs : List (List Token)),
          insertRecordsWith N B fuel env w = .ok d w' ∧
          w'.calls = w.calls ++ bs.map (fun b => Call.insertMany b true) ∧
          (bs.length : Int) = (N + N / B - 1) / (N / B) ∧
          (N + N / B - 1) / (N / B) = ⌈(N : ℚ) / ((N / B : Int) : ℚ)⌉ ∧
          ∀ b ∈ bs, (b.length : Int) = N / B := by
    intro N B hN hB hBN hlen hmax fuel hfuel
    have hs : 1 ≤ N / B := Int.le_ediv_of_mul_le (by omega) (by omega)
    obtain ⟨_, h2, h3, h4⟩ := iterations_spec N (N / B) (by omega) hs
    obtain ⟨d, hd⟩ := insertRecordsWith_run env hins N B (by omega) (by omega) hs hlen hmax fuel
      hfuel w
    refine ⟨d, _, _, hd, rfl, by rw [loopBatches_length]; exact h4, ?_, ?_⟩
    · symm
      rw [Int.ceil_eq_iff, ← h4]
      have hsq : (0 : ℚ) < ((N / B : Int) : ℚ) := by exact_mod_cast (by omega : 0 < N / B)
      constructor
      · rw [lt_div_iff₀ hsq]
        have : ((iterations N (N / B) : Int) - 1) * (N / B) < N := by
          have e : ((iterations N (N / B) : Int) - 1) * (N / B)
              = (iterations N (N / B) : Int) * (N / B) - N / B := by ring
          omega
        exact_mod_cast this
      · rw [div_le_iff₀ hsq]
        exact_mod_cast h2
    · intro b hb
      rw [loopBatches_mem_length _ _ _ _ _ b hb, Int.toNat_of_nonneg (by omega)]
  refine ⟨hgen, ?_⟩
  intro fuel hfuel
  have hit : iterations 100000 (100000 / 1) = 1 := by decide
  obtain ⟨d, w', bs, hrun, hcalls, hlen, _, hb⟩ := hgen 100000 1 (by decide) (by decide)
    (by decide) (by decide) (by rw [hit]; decide) fuel (by rw [hit]; exact hfuel)
  have hlen1 : bs.length = 1 := by
    have : (bs.length : Int) = 1 := by rw [hlen]; decide
    exact_mod_cast this
  obtain ⟨b, rfl⟩ := List.length_eq_one.mp hlen1
  refine ⟨d, w', b, hrun, by simpa using hcalls, ?_⟩
  have := hb b (by simp)
  have h' : (b.length : Int) = 100000 := by rw [this]; decide
  exact_mod_cast h'

/-- C10 (witness): ten documents in three batches, and the program's constants
with two iterations allowed. -/
theorem insertRecords_calls_witness :
    (∃ (d : Int) (w' : World) (bs : List (List Token)),
      insertRecordsWith 10 3 4 (Env.good (fun _ => 0)) (World.init [] []) = .ok d w' ∧
      w'.calls = (World.init [] []).calls ++ bs.map (fun b => Call.insertMany b true) ∧
      (bs.length : Int) = (10 + 10 / 3 - 1) / (10 / 3) ∧
      ((10 : Int) + 10 / 3 - 1) / (10 / 3) = ⌈((10 : Int) : ℚ) / (((10 : Int) / 3 : Int) : ℚ)⌉ ∧
      ∀ b ∈ bs, (b.length : Int) = 10 / 3) ∧
    (∃ (d : Int) (w' : World) (b : List Token),
      insertRecords 2 (Env.good (fun _ => 0)) (World.init [] []) = .ok d w' ∧
      w'.calls = (World.init [] []).calls ++ [Call.insertMany b true] ∧ b.length = 100000) :=
  ⟨(insertRecords_calls (Env.good (fun _ => 0)) (fun _ => rfl) (World.init [] [])).1 10 3
      (by decide) (by decide) (by decide) (by decide) (by decide) 4 (by decide),
   (insertRecords_calls (Env.good (fun _ => 0)) (fun _ => rfl) (World.init [] [])).2 2
      (by decide)⟩

/-! ## Traces of the driver -/

theorem scanIndexes_ok (env : Env) (hdec : ∀ k, env.decodeFails k = false)
    (l : List IndexDoc) (pos : Nat) : ∃ b, scanIndexes env pos l = .ok b := by
  induction l generalizing pos with
  | nil => exact ⟨false, rfl⟩
  | cons d rest ih =>
    by_cases hd : d.name = some expireIndex
    · exact ⟨true, by simp [scanIndexes, hdec, hd]⟩
    · obtain ⟨b, hb⟩ := ih (pos + 1)
      exact ⟨b, by simp [scanIndexes, hdec, hd, hb]⟩

/-- What `manageIndex` can do, whatever the environment: it issues only index
calls, prints only index status lines, and leaves the clock and the documents
alone; it neither panics nor loops. -/
theorem manageIndex_frame (env : Env) (w : World) :
    ∃ (cs : List Call) (ls : List Line),
      (manageIndex env w).world.calls = w.calls ++ cs ∧
      (∀ c ∈ cs, c.isInsert = false ∧ c.isCleanup = false) ∧
      (manageIndex env w).world.out = w.out ++ ls ∧
      (∀ l ∈ ls, l.isTiming = false) ∧
      (manageIndex env w).world.docs = w.docs ∧
      (manageIndex env w).world.reads = w.reads ∧
      (manageIndex env w).world.inserts = w.inserts ∧
      (∀ w', manageIndex env w ≠ .panic w') ∧ (∀ w', manageIndex env w ≠ .outOfFuel w') ∧
      (∀ w', manageIndex env w = .ok false w' →
        ∃ line, ls = [Line.println line] ∧
          (line = "TTL index created." ∨ line = "TTL index exists.")) := by
  unfold manageIndex
  by_cases hl : env.listFails = true
  · refine ⟨[Call.listIndexes false], [], ?_⟩
    simp [hl, Outcome.world, Call.isInsert, Call.isCleanup]
  · simp only [hl, if_false]
    rcases hscan : scanIndexes env 0 w.indexes with _ | b
    · refine ⟨[Call.listIndexes true], [], ?_⟩
      simp [hl, Outcome.world, Call.isInsert, Call.isCleanup]
    · cases b
      · refine ⟨[Call.listIndexes true,
          Call.createOne expireIndex "expires_on" 0 (!env.createFails)],
          [Line.println "TTL index created."], ?_⟩
        simp [hl, Outcome.world, Call.isInsert, Call.isCleanup, Line.isTiming]
      · refine ⟨[Call.listIndexes true], [Line.println "TTL index exists."], ?_⟩
        simp [hl, Outcome.world, Call.isInsert, Call.isCleanup, Line.isTiming]

/-- When the listing, the decoding and the creation succeed, `manageIndex`
returns without error. -/
theorem manageIndex_ok (env : Env) (w : World) (hlist : env.listFails = false)
    (hdec : ∀ k, env.decodeFails k = false) (hcreate : env.createFails = false) :
    ∃ w2, manageIndex env w = .ok false w2 := by
  obtain ⟨b, hb⟩ := scanIndexes_ok env hdec w.indexes 0
  cases b <;> simp [manageIndex, hlist, hcreate, hb]

theorem isInsert_of_isFailedInsert (c : Call) (h : c.isInsert = false) :
    c.isFailedInsert = false := by
  cases c <;> simp_all [Call.isInsert, Call.isFailedInsert]

/-- The trace of the loop of `insertRecords`, whatever the environment: a run
of successful `InsertMany` calls, followed by one failed call exactly when the
loop ends the process; nothing is printed. -/
theorem insertLoop_trace (env : Env) (total s : Int) (fuel : Nat) :
    ∀ (i d : Int) (w : World), ∃ bs : List (List Token),
      (insertLoop env total s fuel i d w).world.out = w.out ∧
      (((insertLoop env total s fuel i d w).world.calls
          = w.calls ++ bs.map (fun b => Call.insertMany b true) ∧
        ∀ w', insertLoop env total s fuel i d w ≠ .fatal w') ∨
       (∃ b, (insertLoop env total s fuel i d w).world.calls
          = w.calls ++ bs.map (fun b => Call.insertMany b true) ++ [Call.insertMany b false] ∧
        ∃ w', insertLoop env total s fuel i d w = .fatal w')) := by
  induction fuel with
  | zero =>
    intro i d w
    refine ⟨[], ?_⟩
    by_cases hi : i < total <;> simp [insertLoop, hi, Outcome.world]
  | succ fuel ih =>
    intro i d w
    by_cases hi : i < total
    · simp only [insertLoop, if_pos hi]
      rcases hb : getBatch env.now w.reads i s with _ | ⟨batch, c⟩
      · exact ⟨[], by simp [Outcome.world]⟩
      · rcases hf : env.insertFails w.inserts with _ | m
        · simp only []
          obtain ⟨bs, hout, h⟩ := ih (addInt i s)
            (addInt d (subTime (env.now (c + 1)) (env.now c)))
            { w with
              reads := c + 2
              inserts := w.inserts + 1
              docs := w.docs ++ batch.map encodeToken
              calls := w.calls ++ [Call.insertMany batch true] }
          refine ⟨batch :: bs, hout, ?_⟩
          rcases h with ⟨hc, hnf⟩ | ⟨b, hc, hfat⟩
          · left; exact ⟨by rw [hc]; simp, hnf⟩
          · right; exact ⟨b, by rw [hc]; simp, hfat⟩
        · exact ⟨[], by simp [Outcome.world]⟩
    · exact ⟨[], by simp [insertLoop, hi, Outcome.world]⟩

theorem disconnect_world (env : Env) (w : World) :
    (disconnect env w).world
      = { w with calls := w.calls ++ [Call.disconnect (!env.disconnectFails)] } := by
  unfold disconnect
  by_cases h : env.disconnectFails = true <;> simp [h, Outcome.world]

/-- A panic runs the deferred disconnect: the state reached is that of the
disconnect. -/
theorem panic_disconnect_world (env : Env) (w : World) :
    (match disconnect env w with
      | .ok _ w4 => Outcome.panic w4
      | o => o).world = (disconnect env w).world := by
  unfold disconnect
  by_cases h : env.disconnectFails = true <;> simp [h, Outcome.world]

/-- The calls of the cleanup phase: never an `InsertMany`. -/
theorem cleanup_trace (env : Env) (exp : Int) (w : World) :
    ∃ cs : List Call, (cleanup env exp w).world.calls = w.calls ++ cs ∧
      ∀ c ∈ cs, c.isInsert = false := by
  unfold cleanup
  by_cases h1 : exp = 1
  · by_cases hd : env.deleteFails = true
    · exact ⟨[Call.deleteMany false], by simp [h1, hd, Outcome.world, Call.isInsert]⟩
    · refine ⟨[Call.deleteMany true, Call.disconnect (!env.disconnectFails)], ?_⟩
      simp [h1, hd, finish, disconnect_world, Call.isInsert]
  · by_cases h2 : exp = 2
    · by_cases hu : env.updateFails = true
      · exact ⟨[Call.updateMany (env.now (w.reads + 1)) false],
          by simp [h1, h2, hu, Outcome.world, Call.isInsert]⟩
      · refine ⟨[Call.updateMany (env.now (w.reads + 1)) true,
          Call.disconnect (!env.disconnectFails)], ?_⟩
        simp [h2, hu, finish, disconnect_world, Call.isInsert]
    · refine ⟨[Call.disconnect (!env.disconnectFails)], ?_⟩
      simp [h1, h2, finish, disconnect_world, Call.isInsert]

/-- The driver once the connection succeeded. -/
theorem mainWith_connected (N B : Int) (fuel : Nat) (env : Env) (exp : Int) (w : World)
    (hc : env.connectFails = false) :
    mainWith N B fuel env exp w =
      match manageIndex env { w with calls := w.calls ++ [Call.connect true] } with
      | .ok true w2 => .fatal w2
      | .ok false w2 => experiment N B fuel env exp w2
      | .fatal w2 => .fatal w2
      | .panic w2 => .panic w2
      | .outOfFuel w2 => .outOfFuel w2 := by
  simp [mainWith, hc]

/-- The insert and cleanup phases for experiment 1 or 2 either add no failed
`InsertMany` to the trace, or end the process right after a failed
`InsertMany`, before any cleanup call and any timing line. -/
theorem experiment_failed_insert_cases (N B : Int) (fuel : Nat) (env : Env) (exp : Int)
    (hexp : exp = 1 ∨ exp = 2) (w : World)
    (hw : ∀ c ∈ w.calls, c.isFailedInsert = false ∧ c.isCleanup = false)
    (hout : ∀ l ∈ w.out, l.isTiming = false) :
    (∀ c ∈ (experiment N B fuel env exp w).world.calls, c.isFailedInsert = false) ∨
    (∃ (w' : World) (pre : List Call) (b : List Token),
      experiment N B fuel env exp w = .fatal w' ∧
      w'.calls = pre ++ [Call.insertMany b false] ∧
      (∀ c ∈ pre, c.isFailedInsert = false ∧ c.isCleanup = false) ∧
      (∀ l ∈ w'.out, l.isTiming = false)) := by
  have hexp' : ¬ (exp ≠ 1 ∧ exp ≠ 2) := by omega
  unfold experiment insertRecordsWith
  simp only [if_neg hexp']
  obtain ⟨bs, hlout, hl⟩ := insertLoop_trace env N (Int.tdiv N B) fuel 0 0 w
  have hbs : ∀ c ∈ bs.map (fun b => Call.insertMany b true),
      c.isFailedInsert = false ∧ c.isCleanup = false := by
    intro c hcm
    obtain ⟨b, _, rfl⟩ := List.mem_map.mp hcm
    simp [Call.isFailedInsert, Call.isCleanup]
  have hpre : ∀ c ∈ w.calls ++ bs.map (fun b => Call.insertMany b true),
      c.isFailedInsert = false ∧ c.isCleanup = false := by
    intro c hcm
    rcases List.mem_append.mp hcm with h | h
    · exact hw c h
    · exact hbs c h
  rcases hl with ⟨hlc, hnotfatal⟩ | ⟨b, hlc, w3, hfat⟩
  · left
    rcases hloop : insertLoop env N (Int.tdiv N B) fuel 0 0 w with ⟨d, w3⟩ | w3 | w3 | w3
    · rw [hloop] at hlc
      simp only [Outcome.world] at hlc
      obtain ⟨cs', hcl, hcs'⟩ := cleanup_trace env exp
        { w3 with out := w3.out ++ [Line.inserted N d] }
      intro c hcm
      rw [hcl] at hcm
      simp only [] at hcm
      rw [hlc] at hcm
      rcases List.mem_append.mp hcm with h | h
      · exact (hpre c h).1
      · exact isInsert_of_isFailedInsert c (hcs' c h)
    · exact absurd hloop (hnotfatal w3)
    · rw [hloop] at hlc
      simp only [Outcome.world] at hlc
      intro c hcm
      have hworld := disconnect_world env w3
      have hcm' : c ∈ (disconnect env w3).world.calls := by
        rw [← panic_disconnect_world env w3]
        exact hcm
      rw [hworld] at hcm'
      simp only [] at hcm'
      rw [hlc] at hcm'
      rcases List.mem_append.mp hcm' with h | h
      · exact (hpre c h).1
      · simp only [List.mem_singleton] at h
        subst h
        rfl
    · rw [hloop] at hlc
      simp only [Outcome.world] at hlc
      intro c hcm
      simp only [Outcome.world] at hcm
      rw [hlc] at hcm
      exact (hpre c hcm).1
  · right
    rw [hfat] at hlc hlout ⊢
    simp only [Outcome.world] at hlc hlout
    refine ⟨w3, w.calls ++ bs.map (fun b => Call.insertMany b true), b, rfl, hlc, hpre, ?_⟩
    intro l hl
    rw [hlout] at hl
    exact hout l hl

/-- A run of the driver for experiment 1 or 2 from a fresh process either
contains no failed `InsertMany`, or ends the process right after its first
failed `InsertMany`, before any cleanup call and any timing line. -/
theorem mainWith_failed_insert_cases (N B : Int) (fuel : Nat) (env : Env) (exp : Int)
    (hexp : exp = 1 ∨ exp = 2) (idx : List IndexDoc) (docs : List StoredDoc) :
    (∀ c ∈ (mainWith N B fuel env exp (World.init idx docs)).world.calls,
        c.isFailedInsert = false) ∨
    (∃ (w' : World) (pre : List Call) (b : List Token),
      mainWith N B fuel env exp (World.init idx docs) = .fatal w' ∧
      w'.calls = pre ++ [Call.insertMany b false] ∧
      (∀ c ∈ pre, c.isFailedInsert = false ∧ c.isCleanup = false) ∧
      (∀ l ∈ w'.out, l.isTiming = false)) := by
  by_cases hc : env.connectFails = true
  · left
    simp [mainWith, hc, Outcome.world, World.init, Call.isFailedInsert]
  · have hc' : env.connectFails = false := by simpa using hc
    rw [mainWith_connected N B fuel env exp _ hc']
    obtain ⟨cs, ls, hcalls, hcs, hout, hls, -, -, -, hnp, hnf, -⟩ :=
      manageIndex_frame env { World.init idx docs with
        calls := (World.init idx docs).calls ++ [Call.connect true] }
    have hall : ∀ c ∈ (manageIndex env { World.init idx docs with
        calls := (World.init idx docs).calls ++ [Call.connect true] }).world.calls,
        c.isFailedInsert = false ∧ c.isCleanup = false := by
      intro c hcm
      rw [hcalls] at hcm
      rcases List.mem_append.mp hcm with h | h
      · simp only [World.init, List.nil_append, List.mem_singleton] at h
        subst h
        simp [Call.isFailedInsert, Call.isCleanup]
      · exact ⟨isInsert_of_isFailedInsert c (hcs c h).1, (hcs c h).2⟩
    have hallout : ∀ l ∈ (manageIndex env { World.init idx docs with
        calls := (World.init idx docs).calls ++ [Call.connect true] }).world.out,
        l.isTiming = false := by
      intro l hl
      rw [hout] at hl
      simp only [World.init, List.nil_append] at hl
      exact hls l hl
    rcases hmi : manageIndex env { World.init idx docs with
        calls := (World.init idx docs).calls ++ [Call.connect true] } with
      ⟨e, w2⟩ | w2 | w2 | w2
    · rw [hmi] at hall hallout
      simp only [Outcome.world] at hall hallout
      cases e
      · exact experiment_failed_insert_cases N B fuel env exp hexp w2 hall hallout
      · left
        intro c hcm
        exact (hall c hcm).1
    · left
      rw [hmi] at hall
      intro c hcm
      exact (hall c hcm).1
    · exact absurd hmi (hnp w2)
    · exact absurd hmi (hnf w2)

/-- C8: in a run of the driver for experiment 1 or 2, if an `InsertMany` call
fails then the run ends the process through `log.Fatal`, the failed call is the
last call of the run (no further `InsertMany`), no `DeleteMany` or `UpdateMany`
was issued, and neither timing line was printed. -/
theorem main_insert_failure_fatal (N B : Int) (fuel : Nat) (env : Env) (exp : Int)
    (hexp : exp = 1 ∨ exp = 2) (idx : List IndexDoc) (docs : List StoredDoc)
    (hfail : ∃ c ∈ (mainWith N B fuel env exp (World.init idx docs)).world.calls,
      c.isFailedInsert = true) :
    ∃ (w' : World) (pre : List Call) (b : List Token),
      mainWith N B fuel env exp (World.init idx docs) = .fatal w' ∧
      w'.calls = pre ++ [Call.insertMany b false] ∧
      (∀ c ∈ pre, c.isFailedInsert = false) ∧
      (∀ c ∈ w'.calls, c.isCleanup = false) ∧
      (∀ l ∈ w'.out, l.isTiming = false) := by
  rcases mainWith_failed_insert_cases N B fuel env exp hexp idx docs with h | h
  · obtain ⟨c, hc, hf⟩ := hfail
    rw [h c hc] at hf
    cases hf
  · obtain ⟨w', pre, b, hrun, hcalls, hpre, hout⟩ := h
    refine ⟨w', pre, b, hrun, hcalls, fun c hc => (hpre c hc).1, ?_, hout⟩
    intro c hc
    rw [hcalls] at hc
    rcases List.mem_append.mp hc with h | h
    · exact (hpre c h).2
    · simp only [List.mem_singleton] at h
      subst h
      rfl

/-- C8 (witness): four documents in two batches, the second `InsertMany`
failing after one document was written. -/
theorem main_insert_failure_fatal_witness :
    ∃ (w' : World) (pre : List Call) (b : List Token),
      mainWith 4 2 5 { Env.good (fun _ => 0) with
          insertFails := fun k => if k = 1 then some 1 else none } 1 (World.init [] [])
        = .fatal w' ∧
      w'.calls = pre ++ [Call.insertMany b false] ∧
      (∀ c ∈ pre, c.isFailedInsert = false) ∧
      (∀ c ∈ w'.calls, c.isCleanup = false) ∧
      (∀ l ∈ w'.out, l.isTiming = false) :=
  main_insert_failure_fatal 4 2 5 { Env.good (fun _ => 0) with
      insertFails := fun k => if k = 1 then some 1 else none } 1 (Or.inl rfl) [] []
    ⟨Call.insertMany (getBatchLoop (fun _ => 0) 2 2 0 6) false, by decide, rfl⟩

/-- C6 (counterexample): with experiment id 0, the connection and the index
management succeeding and the deferred `Disconnect` failing, the run ends
through `log.Fatal`. -/
theorem main_other_exp_disconnect_fatal :
    main 1 { Env.good (fun _ => 0) with disconnectFails := true } 0 (World.init [] [])
      = .fatal
        { reads := 0, inserts := 0, indexes := [{ name := some expireIndex }], docs := [],
          calls := [Call.connect true, Call.listIndexes true,
            Call.createOne expireIndex "expires_on" 0 true, Call.disconnect false],
          out := [Line.println "TTL index created."] } := by
  rfl

/-- C6 (amended): for every experiment id other than 1 and 2, when the
connection and the index management succeed, the driver issues no
`InsertMany`, `DeleteMany` or `UpdateMany` call, prints the index status line
and nothing else, and leaves the documents alone; it then runs the deferred
`Disconnect`, and it finishes without a fatal error when that call succeeds,
and through `log.Fatal` when it fails. -/
theorem main_other_exp (N B : Int) (fuel : Nat) (env : Env) (exp : Int)
    (hexp : exp ≠ 1 ∧ exp ≠ 2) (hconn : env.connectFails = false)
    (hlist : env.listFails = false) (hdec : ∀ k, env.decodeFails k = false)
    (hcreate : env.createFails = false) (idx : List IndexDoc) (docs : List StoredDoc) :
    ∃ (w' : World) (line : String) (cs : List Call),
      (mainWith N B fuel env exp (World.init idx docs)).world = w' ∧
      w'.calls = cs ++ [Call.disconnect (!env.disconnectFails)] ∧
      (∀ c ∈ w'.calls, c.isInsert = false ∧ c.isCleanup = false) ∧
      w'.out = [Line.println line] ∧
      (line = "TTL index created." ∨ line = "TTL index exists.") ∧
      w'.docs = docs ∧
      (env.disconnectFails = false → mainWith N B fuel env exp (World.init idx docs) = .ok () w') ∧
      (env.disconnectFails = true → mainWith N B fuel env exp (World.init idx docs) = .fatal w') := by
  rw [mainWith_connected N B fuel env exp _ hconn]
  obtain ⟨w2, hmi⟩ := manageIndex_ok env { World.init idx docs with
    calls := (World.init idx docs).calls ++ [Call.connect true] } hlist hdec hcreate
  obtain ⟨cs, ls, hcalls, hcs, hout, -, hdocs, -, -, -, -, hline⟩ :=
    manageIndex_frame env { World.init idx docs with
      calls := (World.init idx docs).calls ++ [Call.connect true] }
  obtain ⟨line, hls, hline'⟩ := hline w2 hmi
  rw [hmi] at hcalls hout hdocs ⊢
  simp only [Outcome.world, World.init, List.nil_append] at hcalls hout hdocs
  simp only [experiment, if_pos hexp]
  refine ⟨_, line, w2.calls, disconnect_world env w2, rfl, ?_, ?_, hline', hdocs, ?_, ?_⟩
  · intro c hc
    simp only [] at hc
    rcases List.mem_append.mp hc with h | h
    · rw [hcalls] at h
      rcases List.mem_cons.mp h with h | h
      · subst h; exact ⟨rfl, rfl⟩
      · exact hcs c h
    · simp only [List.mem_singleton] at h
      subst h; exact ⟨rfl, rfl⟩
  · simp only []; rw [hout, hls]
  · intro hd; simp [disconnect, hd]
  · intro hd; simp [disconnect, hd]

/-- C6 (witness): experiment id 99 on a collection that already has the index. -/
theorem main_other_exp_witness :
    ∃ (w' : World) (line : String) (cs : List Call),
      (mainWith 100000 1 0 (Env.good (fun _ => 0)) 99
        (World.init [{ name := some expireIndex }] [])).world = w' ∧
      w'.calls = cs ++ [Call.disconnect (!(Env.good (fun _ => 0)).disconnectFails)] ∧
      (∀ c ∈ w'.calls, c.isInsert = false ∧ c.isCleanup = false) ∧
      w'.out = [Line.println line] ∧
      (line = "TTL index created." ∨ line = "TTL index exists.") ∧
      w'.docs = [] ∧
      ((Env.good (fun _ => 0)).disconnectFails = false →
        mainWith 100000 1 0 (Env.good (fun _ => 0)) 99
          (World.init [{ name := some expireIndex }] []) = .ok () w') ∧
      ((Env.good (fun _ => 0)).disconnectFails = true →
        mainWith 100000 1 0 (Env.good (fun _ => 0)) 99
          (World.init [{ name := some expireIndex }] []) = .fatal w') :=
  main_other_exp 100000 1 0 (Env.good (fun _ => 0)) 99 (by decide) rfl rfl (fun _ => rfl) rfl
    [{ name := some expireIndex }] []

/-- The cleanup phase of experiment 2 when the update and the disconnect
succeed: the start instant is one clock reading, the instant written to
`expires_on` is the next one. -/
theorem cleanup_update (env : Env) (hu : env.updateFails = false)
    (hd : env.disconnectFails = false) (w : World) :
    cleanup env 2 w = .ok ()
      { w with
        reads := w.reads + 3
        docs := w.docs.map (fun x => { x with expires_on := toDateTime (env.now (w.reads + 1)) })
        calls := w.calls ++ [Call.updateMany (env.now (w.reads + 1)) true, Call.disconnect true]
        out := w.out ++ [Line.deleted 2 (subTime (env.now (w.reads + 2)) (env.now w.reads))] } := by
  simp [cleanup, finish, disconnect, hu, hd]

/-- The run of the program for experiment 2 when every call succeeds: the
start instant of the cleanup phase is the clock reading number 200002 (after
two readings per record and two around the `InsertMany` call), and the update
writes the reading number 200003 to `expires_on` of every document. -/
theorem main_update_run (env : Env) (hok : env.allSucceed) (fuel : Nat) (hfuel : 1 ≤ fuel)
    (idx : List IndexDoc) (docs : List StoredDoc) :
    ∃ (line : String) (d : Int) (batch : List Token) (cs : List Call) (ix : List IndexDoc),
      (line = "TTL index created." ∨ line = "TTL index exists.") ∧ batch.length = 100000 ∧
      (∀ c ∈ cs, c.isInsert = false ∧ c.isCleanup = false) ∧
      main fuel env 2 (World.init idx docs) = .ok ()
        { reads := 200005
          inserts := 1
          indexes := ix
          docs := (docs ++ batch.map encodeToken).map
            (fun x => { x with expires_on := toDateTime (env.now 200003) })
          calls := cs ++ [Call.insertMany batch true, Call.updateMany (env.now 200003) true,
            Call.disconnect true]
          out := [Line.println line, Line.inserted totalDocuments d,
            Line.deleted 2 (subTime (env.now 200004) (env.now 200002))] } := by
  obtain ⟨hconn, hlist, hdec, hcreate, hins, -, hupd, hdis⟩ := hok
  obtain ⟨w2, hmi⟩ := manageIndex_ok env { World.init idx docs with
    calls := (World.init idx docs).calls ++ [Call.connect true] } hlist hdec hcreate
  obtain ⟨cs, ls, hcalls, hcs, hout, -, hdocs, hreads, hinserts, -, -, hline⟩ :=
    manageIndex_frame env { World.init idx docs with
      calls := (World.init idx docs).calls ++ [Call.connect true] }
  obtain ⟨line, hls, hline'⟩ := hline w2 hmi
  rw [hmi] at hcalls hout hdocs hreads hinserts
  simp only [Outcome.world, World.init, List.nil_append] at hcalls hout hdocs hreads hinserts
  have hit : iterations 100000 (100000 / 1) = 1 := by decide
  have hq : (100000 : Int) / 1 = 100000 := by decide
  obtain ⟨d, hd⟩ := insertRecordsWith_run env hins 100000 1 (by decide) (by decide) (by decide)
    (by decide)
    (by rw [hit]; decide) fuel (by rw [hit]; exact hfuel) w2
  rw [hit, hq] at hd
  refine ⟨line, d, getBatchLoop env.now 0 100000 0 0, Call.connect true :: cs, w2.indexes,
    hline', getBatchLoop_length _ _ _ _ _, ?_, ?_⟩
  · intro c hc
    rcases List.mem_cons.mp hc with h | h
    · subst h; exact ⟨rfl, rfl⟩
    · exact hcs c h
  · show mainWith 100000 1 fuel env 2 (World.init idx docs) = _
    rw [mainWith_connected _ _ _ _ _ _ hconn, hmi]
    simp only [experiment]
    rw [if_neg (by decide), hd]
    simp only []
    rw [cleanup_update env hupd hdis]
    congr 1
    simp [loopBatches, hcalls, hout, hls, hdocs, hreads, hinserts, totalDocuments]

/-- C7 (counterexample): with every call succeeding and a clock that advances
by one millisecond at every read, the cleanup start instant of experiment 2 is
the reading number 200002, and every document of the collection after the
run has `expires_on` equal to 200003 milliseconds, which is later than the
start instant, not earlier or equal. -/
theorem main_update_expiry_after_start :
    NonDecreasing (fun k => 1000000 * (k : Int)) ∧
      (Env.good (fun k => 1000000 * (k : Int))).allSucceed ∧
      ∃ (w' : World) (line : String) (d : Int),
        main 1 (Env.good (fun k => 1000000 * (k : Int))) 2 (World.init [] []) = .ok () w' ∧
        w'.out = [Line.println line, Line.inserted totalDocuments d,
          Line.deleted 2 (subTime (1000000 * 200004) (1000000 * 200002))] ∧
        w'.docs.length = 100000 ∧
        ∀ x ∈ w'.docs, x.expires_on = 200003 ∧ ¬ (x.expires_on * 1000000 ≤ 1000000 * 200002) ∧
          ¬ (x.expires_on ≤ toDateTime (1000000 * 200002)) := by
  have hgood : (Env.good (fun k => 1000000 * (k : Int))).allSucceed :=
    ⟨rfl, rfl, fun _ => rfl, rfl, fun _ => rfl, rfl, rfl, rfl⟩
  refine ⟨?_, hgood, ?_⟩
  · intro a b hab
    show 1000000 * (a : Int) ≤ 1000000 * (b : Int)
    have : (a : Int) ≤ b := by exact_mod_cast hab
    omega
  · obtain ⟨line, d, batch, cs, ix, -, hlen, -, hrun⟩ :=
      main_update_run (Env.good (fun k => 1000000 * (k : Int))) hgood 1 (le_refl 1) [] []
    refine ⟨_, line, d, hrun, rfl, ?_, ?_⟩
    · simp [hlen]
    · intro x hx
      simp only [List.nil_append, List.mem_map] at hx
      obtain ⟨y, -, rfl⟩ := hx
      refine ⟨?_, ?_, ?_⟩
      · show toDateTime (1000000 * ((200003 : Nat) : Int)) = 200003
        decide
      · show ¬ (toDateTime (1000000 * ((200003 : Nat) : Int)) * 1000000 ≤ 1000000 * 200002)
        decide
      · show ¬ (toDateTime (1000000 * ((200003 : Nat) : Int)) ≤ toDateTime (1000000 * 200002))
        decide

/-- C7 (amended): when experiment id is 2 and every database call succeeds,
under a clock that never goes back, the run returns normally and every
document of the collection afterwards (those present before and those
inserted) has `expires_on` equal to the instant read for the update, in whole
milliseconds; that instant is read after the cleanup start instant, so
`expires_on` is not earlier than the start instant taken in whole milliseconds
(and is later than it as soon as the clock has passed a millisecond boundary in
between); `created_at` is unchanged. -/
theorem main_update_expiry (env : Env) (hok : env.allSucceed) (hmono : NonDecreasing env.now)
    (fuel : Nat) (hfuel : 1 ≤ fuel) (idx : List IndexDoc) (docs : List StoredDoc) :
    ∃ (w' : World) (line : String) (d : Int) (batch : List Token),
      main fuel env 2 (World.init idx docs) = .ok () w' ∧
      Call.insertMany batch true ∈ w'.calls ∧
      Call.updateMany (env.now 200003) true ∈ w'.calls ∧
      w'.out = [Line.println line, Line.inserted totalDocuments d,
        Line.deleted 2 (subTime (env.now 200004) (env.now 200002))] ∧
      w'.docs = (docs ++ batch.map encodeToken).map
        (fun x => { x with expires_on := toDateTime (env.now 200003) }) ∧
      w'.docs.map StoredDoc.created_at = (docs ++ batch.map encodeToken).map StoredDoc.created_at ∧
      env.now 200002 ≤ env.now 200003 ∧
      ∀ x ∈ w'.docs, x.expires_on = toDateTime (env.now 200003) ∧
        toDateTime (env.now 200002) ≤ x.expires_on ∧
        env.now 200002 < (x.expires_on + 1) * 1000000 := by
  obtain ⟨line, d, batch, cs, ix, -, -, -, hrun⟩ := main_update_run env hok fuel hfuel idx docs
  have hle : env.now 200002 ≤ env.now 200003 := hmono 200002 200003 (by decide)
  refine ⟨_, line, d, batch, hrun, by simp, by simp, rfl, rfl, ?_, hle, ?_⟩
  · simp only [List.map_map]
    apply List.map_congr_left
    intro x _
    rfl
  · intro x hx
    simp only [List.mem_map] at hx
    obtain ⟨y, -, rfl⟩ := hx
    simp only [toDateTime]
    refine ⟨trivial, ?_, ?_⟩ <;> omega

/-- C7 (witness): the run under a constant clock. -/
theorem main_update_expiry_witness :
    ∃ (w' : World) (line : String) (d : Int) (batch : List Token),
      main 1 (Env.good (fun _ => 5)) 2 (World.init [] []) = .ok () w' ∧
      Call.insertMany batch true ∈ w'.calls ∧
      Call.updateMany ((Env.good (fun _ => 5)).now 200003) true ∈ w'.calls ∧
      w'.out = [Line.println line, Line.inserted totalDocuments d,
        Line.deleted 2 (subTime ((Env.good (fun _ => 5)).now 200004)
          ((Env.good (fun _ => 5)).now 200002))] ∧
      w'.docs = (([] : List StoredDoc) ++ batch.map encodeToken).map
        (fun x => { x with expires_on := toDateTime ((Env.good (fun _ => 5)).now 200003) }) ∧
      w'.docs.map StoredDoc.created_at
        = (([] : List StoredDoc) ++ batch.map encodeToken).map StoredDoc.created_at ∧
      (Env.good (fun _ => 5)).now 200002 ≤ (Env.good (fun _ => 5)).now 200003 ∧
      ∀ x ∈ w'.docs, x.expires_on = toDateTime ((Env.good (fun _ => 5)).now 200003) ∧
        toDateTime ((Env.good (fun _ => 5)).now 200002) ≤ x.expires_on ∧
        (Env.good (fun _ => 5)).now 200002 < (x.expires_on + 1) * 1000000 :=
  main_update_expiry (Env.good (fun _ => 5))
    ⟨rfl, rfl, fun _ => rfl, rfl, fun _ => rfl, rfl, rfl, rfl⟩ (fun _ _ _ => le_refl _) 1
    (le_refl 1) [] []

end MongoExperiments
